import Mathlib

/-!
Verification of the bisect tool (sigmaSd/bisect).

The ternary engine (pass/fail/ignore) lives in src/unnamed/part_000 in the
function bisect; the older binary engine (pass/fail) lives in src/main.ts.
Both are embedded below as pure Lean functions over an explicit search
state.  The oracle abstracts the human verdict obtained by confirmResult:
since the engine determines the tested item from the index alone, the
oracle is modelled as a function from the index to the verdict.  A ghost
field tested records the indices tested, in order, for counting claims.

Loops are written with an explicit fuel argument (structural recursion) so
that all definitions compute by kernel reduction; separate lemmas show the
fuel used by the top-level entry points is sufficient (the loop reaches its
exit condition within that many iterations).
-/

/-- The three-way verdict returned by the oracle (enum TestResult in
src/unnamed/part_000). -/
inductive TestResult
  | pass
  | fail
  | ignore
deriving DecidableEq

/-- The mutable state of one engine run of the ternary bisect
(src/unnamed/part_000, lines 107-111), plus a ghost trace of tested
indices. -/
@[ext]
structure SearchState where
  left : Int
  right : Int
  lastGoodIndex : Int
  firstBadIndex : Int
  ignoredItems : List Int
  tested : List Int
deriving DecidableEq

/-- Command-line options of the tool (interface BisectOptions). -/
structure BisectOptions where
  testCommand : String
  itemsFile : String
  nextStateCommand : Option String
deriving DecidableEq

/-- Fuel-indexed replacement of every occurrence of a pattern in a list of
characters, modelling the JavaScript String.replaceAll used by runCommand in
src/unnamed/part_000 line 56.  Each step consumes at least one character, so
fuel equal to the length of the list is enough for a non-empty pattern. -/
def replaceAllGo (pat rep : List Char) : Nat → List Char → List Char
  | 0, l => l
  | _ + 1, [] => []
  | fuel + 1, c :: rest =>
    if pat ≠ [] ∧ pat.isPrefixOf (c :: rest) then
      rep ++ replaceAllGo pat rep fuel ((c :: rest).drop pat.length)
    else
      c :: replaceAllGo pat rep fuel rest

/-- Replacement of every occurrence of pat in s by rep, as in the
JavaScript expression s.replaceAll(pat, rep) for a non-empty pattern. -/
def replaceAll (s pat rep : String) : String :=
  String.mk (replaceAllGo pat.data rep.data s.data.length s.data)

/-- The command string actually executed by runCommand
(src/unnamed/part_000 lines 55-59): when an item is supplied, every
occurrence of the placeholder token is substituted; otherwise the command
runs verbatim. -/
def runCommandFinal (command : String) (item : Option String) : String :=
  match item with
  | some it => replaceAll command "@i" it
  | none => command

/-- The list of external commands executed for one tested item, in order
(src/unnamed/part_000 lines 131-137): the next-state command, if
configured, is run with the item substituted; then the test command is run
with no item argument. -/
def testStepCommands (options : BisectOptions) (item : String) : List String :=
  (match options.nextStateCommand with
   | some c => [runCommandFinal c (some item)]
   | none => []) ++ [runCommandFinal options.testCommand none]

/-- The list of n consecutive integers starting at lo. -/
def intRangeGo : Nat → Int → List Int
  | 0, _ => []
  | n + 1, lo => lo :: intRangeGo n (lo + 1)

/-- The list of integers from lo to hi inclusive (empty when hi < lo). -/
def intRange (lo hi : Int) : List Int :=
  intRangeGo (hi + 1 - lo).toNat lo

/-- Fuel-indexed inner loop of the ternary engine (src/unnamed/part_000
lines 119-157): starting at the cursor, test items rightwards; a Pass
records lastGoodIndex and moves left past the cursor, a Fail records
firstBadIndex and moves right below the cursor, an Ignore records the index
and advances the cursor.  Returns the state and the final cursor value. -/
def innerLoopGo (oracle : Int → TestResult) :
    Nat → SearchState → Int → SearchState × Int
  | 0, s, cursor => (s, cursor)
  | fuel + 1, s, cursor =>
    if cursor ≤ s.right then
      match oracle cursor with
      | .pass =>
        ({ s with lastGoodIndex := cursor, left := cursor + 1,
                  tested := s.tested ++ [cursor] }, cursor)
      | .fail =>
        ({ s with firstBadIndex := cursor, right := cursor - 1,
                  tested := s.tested ++ [cursor] }, cursor)
      | .ignore =>
        innerLoopGo oracle fuel
          { s with ignoredItems := s.ignoredItems ++ [cursor],
                   tested := s.tested ++ [cursor] } (cursor + 1)
    else (s, cursor)

/-- The inner loop with exactly enough fuel: the cursor only moves
rightwards and the loop stops once it passes the right bound, so the size
of the interval from the cursor to the right bound is sufficient fuel. -/
def innerLoop (oracle : Int → TestResult) (s : SearchState) (cursor : Int) :
    SearchState × Int :=
  innerLoopGo oracle (s.right + 1 - cursor).toNat s cursor

/-- One outer iteration of the ternary engine (src/unnamed/part_000 lines
113-162): compute the midpoint, run the inner loop from it, and narrow the
right bound to mid - 1 when the inner loop finished with its cursor beyond
the (possibly already updated) right bound. -/
def outerStep (oracle : Int → TestResult) (s : SearchState) : SearchState :=
  let mid := (s.left + s.right) / 2
  let p := innerLoop oracle s mid
  if p.2 > p.1.right then { p.1 with right := mid - 1 } else p.1

/-- Fuel-indexed outer loop of the ternary engine: iterate outerStep while
left ≤ right. -/
def outerLoopFuel (oracle : Int → TestResult) : Nat → SearchState → SearchState
  | 0, s => s
  | fuel + 1, s =>
    if s.left ≤ s.right then outerLoopFuel oracle fuel (outerStep oracle s)
    else s

/-- The initial search state for a sequence of n items
(src/unnamed/part_000 lines 107-111). -/
def initState (n : Nat) : SearchState :=
  { left := 0, right := (n : Int) - 1, lastGoodIndex := -1, firstBadIndex := -1,
    ignoredItems := [], tested := [] }

/-- The number of indices in the unresolved range of a state. -/
def rangeSize (s : SearchState) : Nat :=
  (s.right + 1 - s.left).toNat

/-- The complete ternary engine run on a sequence of n items: n units of
fuel are enough because the range strictly shrinks every outer iteration
(proved below). -/
def bisect (oracle : Int → TestResult) (n : Nat) : SearchState :=
  outerLoopFuel oracle n (initState n)

/-- Classification of an index lying strictly between the last good and
first bad indices in the final report (src/unnamed/part_000 lines
210-215). -/
inductive Tag
  | ignored
  | untested
deriving DecidableEq

/-- Structured form of the boundary information printed by the report
section of src/unnamed/part_000 (lines 198-243). -/
inductive BoundaryInfo
  | exactPair (good bad : Int)
  | openRange (good bad : Int) (between : List (Int × Tag))
  | onlyGood (good : Int)
  | onlyBad (bad : Int)
  | noInfo
deriving DecidableEq

/-- Structured form of the final report: the good item and bad item lines
(src/unnamed/part_000 lines 177-195) and the boundary information. -/
structure Report where
  goodItem : Option Int
  badItem : Option Int
  boundary : BoundaryInfo
deriving DecidableEq

/-- The annotated items strictly between lastGoodIndex and firstBadIndex
(src/unnamed/part_000 lines 209-216): ignored when recorded in
ignoredItems, untested otherwise. -/
def itemsInBetween (s : SearchState) : List (Int × Tag) :=
  (intRange (s.lastGoodIndex + 1) (s.firstBadIndex - 1)).map
    (fun i => (i, if i ∈ s.ignoredItems then Tag.ignored else Tag.untested))

/-- Report synthesis (src/unnamed/part_000 lines 177-243): show the good
and bad items when recorded; when both are recorded, a gap of one yields
the exact adjacent pair and a larger gap yields the annotated open range;
with only one side recorded the corresponding one-sided message is
produced. -/
def makeReport (s : SearchState) : Report :=
  { goodItem := if 0 ≤ s.lastGoodIndex then some s.lastGoodIndex else none,
    badItem := if 0 ≤ s.firstBadIndex then some s.firstBadIndex else none,
    boundary :=
      if 0 ≤ s.firstBadIndex ∧ 0 ≤ s.lastGoodIndex then
        let gap := s.firstBadIndex - s.lastGoodIndex
        if gap = 1 then BoundaryInfo.exactPair s.lastGoodIndex s.firstBadIndex
        else if gap > 1 then
          BoundaryInfo.openRange s.lastGoodIndex s.firstBadIndex (itemsInBetween s)
        else BoundaryInfo.noInfo
      else if 0 ≤ s.lastGoodIndex ∧ s.firstBadIndex = -1 then
        BoundaryInfo.onlyGood s.lastGoodIndex
      else if s.lastGoodIndex = -1 ∧ 0 ≤ s.firstBadIndex then
        BoundaryInfo.onlyBad s.firstBadIndex
      else BoundaryInfo.noInfo }

/-- The mutable state of one engine run of the binary bisect
(src/main.ts lines 78-81), with the ghost trace of tested indices. -/
@[ext]
structure BinaryState where
  left : Int
  right : Int
  lastGoodIndex : Int
  firstBadIndex : Int
  tested : List Int
deriving DecidableEq

/-- One iteration of the binary engine loop (src/main.ts lines 83-114):
test the midpoint; a passing item records lastGoodIndex and moves left up,
a failing item records firstBadIndex and moves right down. -/
def binaryStep (oracle : Int → Bool) (s : BinaryState) : BinaryState :=
  let mid := (s.left + s.right) / 2
  if oracle mid then
    { s with lastGoodIndex := mid, left := mid + 1, tested := s.tested ++ [mid] }
  else
    { s with firstBadIndex := mid, right := mid - 1, tested := s.tested ++ [mid] }

/-- Fuel-indexed outer loop of the binary engine. -/
def binaryLoopFuel (oracle : Int → Bool) : Nat → BinaryState → BinaryState
  | 0, s => s
  | fuel + 1, s =>
    if s.left ≤ s.right then binaryLoopFuel oracle fuel (binaryStep oracle s)
    else s

/-- The initial state of the binary engine for n items. -/
def initBinaryState (n : Nat) : BinaryState :=
  { left := 0, right := (n : Int) - 1, lastGoodIndex := -1, firstBadIndex := -1,
    tested := [] }

/-- The complete binary engine run on a sequence of n items. -/
def bisectBinary (oracle : Int → Bool) (n : Nat) : BinaryState :=
  binaryLoopFuel oracle n (initBinaryState n)

/-- Run-time invariant of the ternary engine state: the left bound is
non-negative, any recorded last good index lies strictly below the left
bound, the range can be empty by at most one position, and any recorded
first bad index lies strictly above the right bound. -/
def EngineInv (s : SearchState) : Prop :=
  0 ≤ s.left ∧ s.lastGoodIndex < s.left ∧ s.left ≤ s.right + 1 ∧
    (s.firstBadIndex = -1 ∨ s.right < s.firstBadIndex)

/-- Invariant of the ghost trace: tested indices are pairwise distinct and
all lie outside the current unresolved range. -/
def TestedInv (s : SearchState) : Prop :=
  s.tested.Nodup ∧ ∀ i ∈ s.tested, i < s.left ∨ s.right < i

/-- Correspondence between a ternary engine state and a binary engine
state: same bounds, same recorded indices, same trace of tested
indices. -/
def MatchBin (s : SearchState) (b : BinaryState) : Prop :=
  s.left = b.left ∧ s.right = b.right ∧ s.lastGoodIndex = b.lastGoodIndex ∧
    s.firstBadIndex = b.firstBadIndex ∧ s.tested = b.tested

/-- Oracle for a concrete counterexample run: Ignore at index 1, Fail at
index 2, Pass elsewhere. -/
def oracleC1ex : Int → TestResult :=
  fun i => if i = 1 then .ignore else if i = 2 then .fail else .pass

/-- Oracle that passes every item. -/
def oracleAllPass : Int → TestResult := fun _ => .pass

/-- Oracle that ignores every item. -/
def oracleAllIgnore : Int → TestResult := fun _ => .ignore

/-- Ternary oracle with a single monotone transition after index 0. -/
def oraclePF : Int → TestResult := fun i => if i < 1 then .pass else .fail

/-- Binary oracle matching oraclePF. -/
def boraclePF : Int → Bool := fun i => decide (i < 1)

/-- Binary oracle matching oracleAllPass. -/
def boracleAllPass : Int → Bool := fun _ => true

/-- Concrete options used to exercise the command-substitution path. -/
def optsC2 : BisectOptions :=
  { testCommand := "echo @i", itemsFile := "items.txt",
    nextStateCommand := some "git checkout @i" }

/-- Concrete final state with a gap larger than one and an ignored index
inside the gap, used to exercise the report synthesis. -/
def gapState : SearchState :=
  { left := 1, right := 2, lastGoodIndex := 0, firstBadIndex := 3,
    ignoredItems := [1], tested := [0, 3, 1] }

/-! ### Basic facts about intRange and the midpoint -/

theorem intRange_eq_nil (lo hi : Int) (h : hi < lo) : intRange lo hi = [] := by
  unfold intRange
  have h0 : (hi + 1 - lo).toNat = 0 := by omega
  rw [h0]
  rfl

theorem intRange_eq_cons (lo hi : Int) (h : lo ≤ hi) :
    intRange lo hi = lo :: intRange (lo + 1) hi := by
  unfold intRange
  have h1 : (hi + 1 - lo).toNat = (hi + 1 - (lo + 1)).toNat + 1 := by omega
  rw [h1]
  rfl

theorem mem_intRangeGo (n : Nat) (lo i : Int) :
    i ∈ intRangeGo n lo ↔ lo ≤ i ∧ i < lo + n := by
  induction n generalizing lo with
  | zero => simp [intRangeGo]
  | succ m ih =>
    rw [intRangeGo, List.mem_cons, ih (lo + 1)]
    push_cast
    omega

theorem mem_intRange (lo hi i : Int) : i ∈ intRange lo hi ↔ lo ≤ i ∧ i ≤ hi := by
  rw [intRange, mem_intRangeGo]
  omega

theorem intRangeGo_nodup (n : Nat) (lo : Int) : (intRangeGo n lo).Nodup := by
  induction n generalizing lo with
  | zero => simp [intRangeGo]
  | succ m ih =>
    rw [intRangeGo, List.nodup_cons]
    refine ⟨fun hm => ?_, ih (lo + 1)⟩
    rw [mem_intRangeGo] at hm
    omega

theorem intRange_nodup (lo hi : Int) : (intRange lo hi).Nodup :=
  intRangeGo_nodup _ _

theorem intRange_count (lo hi i : Int) :
    (intRange lo hi).count i = if lo ≤ i ∧ i ≤ hi then 1 else 0 := by
  by_cases h : lo ≤ i ∧ i ≤ hi
  · rw [if_pos h]
    exact List.count_eq_one_of_mem (intRange_nodup lo hi)
      ((mem_intRange lo hi i).2 h)
  · rw [if_neg h]
    exact List.count_eq_zero_of_not_mem (fun hm => h ((mem_intRange lo hi i).1 hm))

theorem intRangeGo_length (n : Nat) (lo : Int) : (intRangeGo n lo).length = n := by
  induction n generalizing lo with
  | zero => rfl
  | succ m ih =>
    rw [intRangeGo, List.length_cons, ih (lo + 1)]

theorem intRange_length (lo hi : Int) :
    (intRange lo hi).length = (hi + 1 - lo).toNat :=
  intRangeGo_length _ _

theorem mid_bounds (l r : Int) (h : l ≤ r) : l ≤ (l + r) / 2 ∧ (l + r) / 2 ≤ r := by
  omega

theorem intRange_self (i : Int) : intRange i i = [i] := by
  rw [intRange_eq_cons i i le_rfl, intRange_eq_nil (i + 1) i (by omega)]

theorem cons_intRange_append (l : List Int) (a b : Int) (h : a ≤ b) :
    (l ++ [a]) ++ intRange (a + 1) b = l ++ intRange a b := by
  rw [List.append_assoc, List.singleton_append, ← intRange_eq_cons a b h]

/-! ### Characterization of the inner loop

The inner loop, started at a cursor, ends in one of three ways: a Pass at
the final cursor, a Fail at the final cursor, or exhaustion of the range
with every item from the cursor to the right bound Ignored.  The lemma
fully describes the resulting state in each case. -/

theorem innerLoopGo_spec (oracle : Int → TestResult) (fuel : Nat) :
    ∀ (s : SearchState) (cursor : Int) (t : SearchState) (c : Int),
      (s.right + 1 - cursor).toNat ≤ fuel →
      innerLoopGo oracle fuel s cursor = (t, c) →
      cursor ≤ c ∧
      ((c ≤ s.right ∧ oracle c = .pass ∧
        (∀ j, cursor ≤ j → j < c → oracle j = .ignore) ∧
        t.left = c + 1 ∧ t.right = s.right ∧ t.lastGoodIndex = c ∧
        t.firstBadIndex = s.firstBadIndex ∧
        t.ignoredItems = s.ignoredItems ++ intRange cursor (c - 1) ∧
        t.tested = s.tested ++ intRange cursor c) ∨
       (c ≤ s.right ∧ oracle c = .fail ∧
        (∀ j, cursor ≤ j → j < c → oracle j = .ignore) ∧
        t.left = s.left ∧ t.right = c - 1 ∧ t.lastGoodIndex = s.lastGoodIndex ∧
        t.firstBadIndex = c ∧
        t.ignoredItems = s.ignoredItems ++ intRange cursor (c - 1) ∧
        t.tested = s.tested ++ intRange cursor c) ∨
       (c = max cursor (s.right + 1) ∧
        (∀ j, cursor ≤ j → j ≤ s.right → oracle j = .ignore) ∧
        t.left = s.left ∧ t.right = s.right ∧ t.lastGoodIndex = s.lastGoodIndex ∧
        t.firstBadIndex = s.firstBadIndex ∧
        t.ignoredItems = s.ignoredItems ++ intRange cursor s.right ∧
        t.tested = s.tested ++ intRange cursor s.right)) := by
  induction fuel with
  | zero =>
    intro s cursor t c hfuel heq
    simp only [innerLoopGo] at heq
    injection heq with h1 h2
    subst h1
    subst h2
    have hcr : s.right < cursor := by omega
    refine ⟨le_rfl, Or.inr (Or.inr ⟨by omega, fun j hj hj2 => absurd (hj.trans hj2) (by omega), rfl, rfl, rfl, rfl, ?_, ?_⟩)⟩ <;>
      rw [intRange_eq_nil _ _ hcr, List.append_nil]
  | succ fuel ih =>
    intro s cursor t c hfuel heq
    rw [innerLoopGo] at heq
    by_cases hc : cursor ≤ s.right
    · rw [if_pos hc] at heq
      rcases ho : oracle cursor with _ | _ | _ <;> rw [ho] at heq
      · -- Pass at the cursor
        injection heq with h1 h2
        subst h1
        subst h2
        refine ⟨le_rfl, Or.inl ⟨hc, ho, fun j hj hj2 => absurd (hj.trans_lt hj2) (by omega),
          rfl, rfl, rfl, rfl, ?_, ?_⟩⟩
        · rw [intRange_eq_nil _ _ (by omega), List.append_nil]
        · rw [intRange_self]
      · -- Fail at the cursor
        injection heq with h1 h2
        subst h1
        subst h2
        refine ⟨le_rfl, Or.inr (Or.inl ⟨hc, ho, fun j hj hj2 => absurd (hj.trans_lt hj2) (by omega),
          rfl, rfl, rfl, rfl, ?_, ?_⟩)⟩
        · rw [intRange_eq_nil _ _ (by omega), List.append_nil]
        · rw [intRange_self]
      · -- Ignore at the cursor: recurse from cursor + 1
        have heq2 : innerLoopGo oracle fuel
            { s with ignoredItems := s.ignoredItems ++ [cursor],
                     tested := s.tested ++ [cursor] } (cursor + 1) = (t, c) := heq
        have hfuel2 : (s.right + 1 - (cursor + 1)).toNat ≤ fuel := by omega
        obtain ⟨hcc, hcase⟩ := ih
          { s with ignoredItems := s.ignoredItems ++ [cursor],
                   tested := s.tested ++ [cursor] } (cursor + 1) t c hfuel2 heq2
        have hcc2 : cursor + 1 ≤ c := hcc
        refine ⟨by omega, ?_⟩
        rcases hcase with ⟨h1, h2, h3, h4, h5, h6, h7, h8, h9⟩ |
          ⟨h1, h2, h3, h4, h5, h6, h7, h8, h9⟩ | ⟨h1, h2, h3, h4, h5, h6, h7, h8⟩
        · have h1a : c ≤ s.right := h1
          have h5a : t.right = s.right := h5
          have h7a : t.firstBadIndex = s.firstBadIndex := h7
          have h8a : t.ignoredItems =
              (s.ignoredItems ++ [cursor]) ++ intRange (cursor + 1) (c - 1) := h8
          have h9a : t.tested = (s.tested ++ [cursor]) ++ intRange (cursor + 1) c := h9
          refine Or.inl ⟨h1a, h2, ?_, h4, h5a, h6, h7a, ?_, ?_⟩
          · intro j hj hj2
            rcases eq_or_lt_of_le hj with rfl | hlt
            · exact ho
            · exact h3 j (by omega) hj2
          · rw [h8a]
            exact cons_intRange_append _ cursor _ (by omega)
          · rw [h9a]
            exact cons_intRange_append _ cursor _ (by omega)
        · have h1a : c ≤ s.right := h1
          have h4a : t.left = s.left := h4
          have h6a : t.lastGoodIndex = s.lastGoodIndex := h6
          have h8a : t.ignoredItems =
              (s.ignoredItems ++ [cursor]) ++ intRange (cursor + 1) (c - 1) := h8
          have h9a : t.tested = (s.tested ++ [cursor]) ++ intRange (cursor + 1) c := h9
          refine Or.inr (Or.inl ⟨h1a, h2, ?_, h4a, h5, h6a, h7, ?_, ?_⟩)
          · intro j hj hj2
            rcases eq_or_lt_of_le hj with rfl | hlt
            · exact ho
            · exact h3 j (by omega) hj2
          · rw [h8a]
            exact cons_intRange_append _ cursor _ (by omega)
          · rw [h9a]
            exact cons_intRange_append _ cursor _ (by omega)
        · have h1a : c = max (cursor + 1) (s.right + 1) := h1
          have h2a : ∀ j, cursor + 1 ≤ j → j ≤ s.right → oracle j = .ignore := h2
          have h3a : t.left = s.left := h3
          have h4a : t.right = s.right := h4
          have h5a : t.lastGoodIndex = s.lastGoodIndex := h5
          have h6a : t.firstBadIndex = s.firstBadIndex := h6
          have h7a : t.ignoredItems =
              (s.ignoredItems ++ [cursor]) ++ intRange (cursor + 1) s.right := h7
          have h8a : t.tested = (s.tested ++ [cursor]) ++ intRange (cursor + 1) s.right := h8
          refine Or.inr (Or.inr ⟨by omega, ?_, h3a, h4a, h5a, h6a, ?_, ?_⟩)
          · intro j hj hj2
            rcases eq_or_lt_of_le hj with rfl | hlt
            · exact ho
            · exact h2a j (by omega) hj2
          · rw [h7a]
            exact cons_intRange_append _ cursor _ hc
          · rw [h8a]
            exact cons_intRange_append _ cursor _ hc
    · rw [if_neg hc] at heq
      injection heq with h1 h2
      subst h1
      subst h2
      refine ⟨le_rfl, Or.inr (Or.inr ⟨by omega,
        fun j hj hj2 => absurd (hj.trans hj2) (by omega), rfl, rfl, rfl, rfl, ?_, ?_⟩)⟩ <;>
        rw [intRange_eq_nil _ _ (by omega), List.append_nil]

/-- The characterization of the inner loop at its canonical fuel. -/
theorem innerLoop_spec (oracle : Int → TestResult) (s : SearchState) (cursor : Int)
    (t : SearchState) (c : Int) (heq : innerLoop oracle s cursor = (t, c)) :
    cursor ≤ c ∧
    ((c ≤ s.right ∧ oracle c = .pass ∧
      (∀ j, cursor ≤ j → j < c → oracle j = .ignore) ∧
      t.left = c + 1 ∧ t.right = s.right ∧ t.lastGoodIndex = c ∧
      t.firstBadIndex = s.firstBadIndex ∧
      t.ignoredItems = s.ignoredItems ++ intRange cursor (c - 1) ∧
      t.tested = s.tested ++ intRange cursor c) ∨
     (c ≤ s.right ∧ oracle c = .fail ∧
      (∀ j, cursor ≤ j → j < c → oracle j = .ignore) ∧
      t.left = s.left ∧ t.right = c - 1 ∧ t.lastGoodIndex = s.lastGoodIndex ∧
      t.firstBadIndex = c ∧
      t.ignoredItems = s.ignoredItems ++ intRange cursor (c - 1) ∧
      t.tested = s.tested ++ intRange cursor c) ∨
     (c = max cursor (s.right + 1) ∧
      (∀ j, cursor ≤ j → j ≤ s.right → oracle j = .ignore) ∧
      t.left = s.left ∧ t.right = s.right ∧ t.lastGoodIndex = s.lastGoodIndex ∧
      t.firstBadIndex = s.firstBadIndex ∧
      t.ignoredItems = s.ignoredItems ++ intRange cursor s.right ∧
      t.tested = s.tested ++ intRange cursor s.right)) :=
  innerLoopGo_spec oracle _ s cursor t c le_rfl heq

/-- Characterization of one outer iteration when the range is non-empty:
either some item at or after the midpoint passes (all items between the
midpoint and it being ignored), or some such item fails, or the whole rest
of the range is ignored; the resulting state is fully described in each
case. -/
theorem outerStep_spec (oracle : Int → TestResult) (s : SearchState) (h : s.left ≤ s.right) :
    ((∃ c, (s.left + s.right) / 2 ≤ c ∧ c ≤ s.right ∧ oracle c = .pass ∧
      (∀ j, (s.left + s.right) / 2 ≤ j → j < c → oracle j = .ignore) ∧
      (outerStep oracle s).left = c + 1 ∧ (outerStep oracle s).right = s.right ∧
      (outerStep oracle s).lastGoodIndex = c ∧
      (outerStep oracle s).firstBadIndex = s.firstBadIndex ∧
      (outerStep oracle s).ignoredItems =
        s.ignoredItems ++ intRange ((s.left + s.right) / 2) (c - 1) ∧
      (outerStep oracle s).tested = s.tested ++ intRange ((s.left + s.right) / 2) c) ∨
     (∃ c, (s.left + s.right) / 2 ≤ c ∧ c ≤ s.right ∧ oracle c = .fail ∧
      (∀ j, (s.left + s.right) / 2 ≤ j → j < c → oracle j = .ignore) ∧
      (outerStep oracle s).left = s.left ∧
      (outerStep oracle s).right = (s.left + s.right) / 2 - 1 ∧
      (outerStep oracle s).lastGoodIndex = s.lastGoodIndex ∧
      (outerStep oracle s).firstBadIndex = c ∧
      (outerStep oracle s).ignoredItems =
        s.ignoredItems ++ intRange ((s.left + s.right) / 2) (c - 1) ∧
      (outerStep oracle s).tested = s.tested ++ intRange ((s.left + s.right) / 2) c) ∨
     ((∀ j, (s.left + s.right) / 2 ≤ j → j ≤ s.right → oracle j = .ignore) ∧
      (outerStep oracle s).left = s.left ∧
      (outerStep oracle s).right = (s.left + s.right) / 2 - 1 ∧
      (outerStep oracle s).lastGoodIndex = s.lastGoodIndex ∧
      (outerStep oracle s).firstBadIndex = s.firstBadIndex ∧
      (outerStep oracle s).ignoredItems =
        s.ignoredItems ++ intRange ((s.left + s.right) / 2) s.right ∧
      (outerStep oracle s).tested =
        s.tested ++ intRange ((s.left + s.right) / 2) s.right)) := by
  obtain ⟨hml, hmr⟩ := mid_bounds s.left s.right h
  rcases he : innerLoop oracle s ((s.left + s.right) / 2) with ⟨t1, c⟩
  obtain ⟨hcc, hcase⟩ := innerLoop_spec oracle s _ t1 c he
  have hstep : outerStep oracle s =
      if c > t1.right then { t1 with right := (s.left + s.right) / 2 - 1 } else t1 := by
    simp only [outerStep, he]
  rcases hcase with ⟨h1, h2, h3, h4, h5, h6, h7, h8, h9⟩ |
    ⟨h1, h2, h3, h4, h5, h6, h7, h8, h9⟩ | ⟨h1, h2, h3, h4, h5, h6, h7, h8⟩
  · have ho : outerStep oracle s = t1 := by
      rw [hstep, if_neg (by omega)]
    refine Or.inl ⟨c, hcc, h1, h2, h3, ?_, ?_, ?_, ?_, ?_, ?_⟩
    · rw [ho]; exact h4
    · rw [ho]; exact h5
    · rw [ho]; exact h6
    · rw [ho]; exact h7
    · rw [ho]; exact h8
    · rw [ho]; exact h9
  · have ho : outerStep oracle s = { t1 with right := (s.left + s.right) / 2 - 1 } := by
      rw [hstep, if_pos (by omega)]
    refine Or.inr (Or.inl ⟨c, hcc, h1, h2, h3, ?_, ?_, ?_, ?_, ?_, ?_⟩)
    · rw [ho]; exact h4
    · rw [ho]
    · rw [ho]; exact h6
    · rw [ho]; exact h7
    · rw [ho]; exact h8
    · rw [ho]; exact h9
  · have hc2 : c = s.right + 1 := by omega
    have ho : outerStep oracle s = { t1 with right := (s.left + s.right) / 2 - 1 } := by
      rw [hstep, if_pos (by omega)]
    refine Or.inr (Or.inr ⟨h2, ?_, ?_, ?_, ?_, ?_, ?_⟩)
    · rw [ho]; exact h3
    · rw [ho]
    · rw [ho]; exact h5
    · rw [ho]; exact h6
    · rw [ho]; exact h7
    · rw [ho]; exact h8

/-! ### Progress and termination of the outer loop -/

theorem outerStep_rangeSize_lt (oracle : Int → TestResult) (s : SearchState)
    (h : s.left ≤ s.right) : rangeSize (outerStep oracle s) < rangeSize s := by
  obtain ⟨hml, hmr⟩ := mid_bounds s.left s.right h
  rcases outerStep_spec oracle s h with ⟨c, hc1, hc2, _, _, hl, hr, _⟩ |
    ⟨c, hc1, hc2, _, _, hl, hr, _⟩ | ⟨_, hl, hr, _⟩ <;>
    unfold rangeSize <;> rw [hl, hr] <;> omega

theorem outerLoopFuel_done (oracle : Int → TestResult) :
    ∀ (fuel : Nat) (s : SearchState), rangeSize s ≤ fuel →
      (outerLoopFuel oracle fuel s).right < (outerLoopFuel oracle fuel s).left := by
  intro fuel
  induction fuel with
  | zero =>
    intro s hs
    simp only [outerLoopFuel]
    unfold rangeSize at hs
    omega
  | succ fuel ih =>
    intro s hs
    rw [outerLoopFuel]
    by_cases hg : s.left ≤ s.right
    · rw [if_pos hg]
      exact ih _ (by have := outerStep_rangeSize_lt oracle s hg; omega)
    · rw [if_neg hg]
      omega

theorem outerLoopFuel_of_done (oracle : Int → TestResult) (s : SearchState)
    (h : ¬ s.left ≤ s.right) : ∀ fuel, outerLoopFuel oracle fuel s = s := by
  intro fuel
  cases fuel with
  | zero => rfl
  | succ fuel => rw [outerLoopFuel, if_neg h]

theorem outerLoopFuel_add (oracle : Int → TestResult) :
    ∀ (a b : Nat) (s : SearchState),
      outerLoopFuel oracle (a + b) s = outerLoopFuel oracle b (outerLoopFuel oracle a s) := by
  intro a
  induction a with
  | zero => intro b s; rw [Nat.zero_add]; rfl
  | succ a ih =>
    intro b s
    by_cases hg : s.left ≤ s.right
    · have hshape : a + 1 + b = (a + b) + 1 := by omega
      rw [hshape, outerLoopFuel, if_pos hg, ih b (outerStep oracle s)]
      rw [show outerLoopFuel oracle (a + 1) s = outerLoopFuel oracle a (outerStep oracle s) from by
        rw [outerLoopFuel, if_pos hg]]
    · rw [outerLoopFuel_of_done oracle s hg, outerLoopFuel_of_done oracle s hg]
      exact (outerLoopFuel_of_done oracle s hg b).symm

/-! ### The engine invariant and monotonicity of the recorded indices -/

theorem outerStep_inv (oracle : Int → TestResult) (s : SearchState)
    (h : s.left ≤ s.right) (hinv : EngineInv s) :
    EngineInv (outerStep oracle s) ∧
    s.lastGoodIndex ≤ (outerStep oracle s).lastGoodIndex ∧
    (0 ≤ s.firstBadIndex →
      (outerStep oracle s).firstBadIndex ≤ s.firstBadIndex ∧
      0 ≤ (outerStep oracle s).firstBadIndex) := by
  simp only [EngineInv] at hinv ⊢
  obtain ⟨hml, hmr⟩ := mid_bounds s.left s.right h
  obtain ⟨i1, i2, i3, i4⟩ := hinv
  rcases outerStep_spec oracle s h with ⟨c, hc1, hc2, hv, hj, hl, hr, hg, hb, hrest⟩ |
    ⟨c, hc1, hc2, hv, hj, hl, hr, hg, hb, hrest⟩ | ⟨hj, hl, hr, hg, hb, hrest⟩ <;>
    exact ⟨⟨by omega, by omega, by omega, by omega⟩, by omega, by omega⟩

theorem outerLoopFuel_inv (oracle : Int → TestResult) :
    ∀ (fuel : Nat) (s : SearchState), EngineInv s →
      EngineInv (outerLoopFuel oracle fuel s) ∧
      s.lastGoodIndex ≤ (outerLoopFuel oracle fuel s).lastGoodIndex ∧
      (0 ≤ s.firstBadIndex →
        (outerLoopFuel oracle fuel s).firstBadIndex ≤ s.firstBadIndex ∧
        0 ≤ (outerLoopFuel oracle fuel s).firstBadIndex) := by
  intro fuel
  induction fuel with
  | zero =>
    intro s hinv
    exact ⟨hinv, le_rfl, fun hfb => ⟨le_rfl, hfb⟩⟩
  | succ fuel ih =>
    intro s hinv
    rw [outerLoopFuel]
    by_cases hg : s.left ≤ s.right
    · rw [if_pos hg]
      obtain ⟨j1, j2, j3⟩ := outerStep_inv oracle s hg hinv
      obtain ⟨k1, k2, k3⟩ := ih (outerStep oracle s) j1
      refine ⟨k1, le_trans j2 k2, fun hfb => ?_⟩
      obtain ⟨j3a, j3b⟩ := j3 hfb
      obtain ⟨k3a, k3b⟩ := k3 j3b
      exact ⟨le_trans k3a j3a, k3b⟩
    · rw [if_neg hg]
      exact ⟨hinv, le_rfl, fun hfb => ⟨le_rfl, hfb⟩⟩

theorem initState_inv (n : Nat) : EngineInv (initState n) := by
  show 0 ≤ (0 : Int) ∧ (-1 : Int) < 0 ∧ (0 : Int) ≤ ((n : Int) - 1) + 1 ∧
    ((-1 : Int) = -1 ∨ ((n : Int) - 1) < -1)
  omega

/-! ### The tested-trace invariant: indices are tested at most once -/

theorem outerStep_testedInv (oracle : Int → TestResult) (s : SearchState)
    (h : s.left ≤ s.right) (ht : TestedInv s) : TestedInv (outerStep oracle s) := by
  simp only [TestedInv] at ht ⊢
  obtain ⟨hml, hmr⟩ := mid_bounds s.left s.right h
  obtain ⟨hnd, hout⟩ := ht
  rcases outerStep_spec oracle s h with ⟨c, hc1, hc2, hv, hj, hl, hr, hg, hb, hig, hts⟩ |
    ⟨c, hc1, hc2, hv, hj, hl, hr, hg, hb, hig, hts⟩ | ⟨hj, hl, hr, hg, hb, hig, hts⟩ <;>
    rw [hts] <;> refine ⟨hnd.append (intRange_nodup _ _) ?_, ?_⟩
  · intro a ha hb2
    rw [mem_intRange] at hb2
    rcases hout a ha with h1 | h1 <;> omega
  · intro i hi
    rw [hl, hr]
    rcases List.mem_append.1 hi with h1 | h1
    · rcases hout i h1 with h2 | h2 <;> omega
    · rw [mem_intRange] at h1
      omega
  · intro a ha hb2
    rw [mem_intRange] at hb2
    rcases hout a ha with h1 | h1 <;> omega
  · intro i hi
    rw [hl, hr]
    rcases List.mem_append.1 hi with h1 | h1
    · rcases hout i h1 with h2 | h2 <;> omega
    · rw [mem_intRange] at h1
      omega
  · intro a ha hb2
    rw [mem_intRange] at hb2
    rcases hout a ha with h1 | h1 <;> omega
  · intro i hi
    rw [hl, hr]
    rcases List.mem_append.1 hi with h1 | h1
    · rcases hout i h1 with h2 | h2 <;> omega
    · rw [mem_intRange] at h1
      omega

theorem outerLoopFuel_testedInv (oracle : Int → TestResult) :
    ∀ (fuel : Nat) (s : SearchState), TestedInv s →
      TestedInv (outerLoopFuel oracle fuel s) := by
  intro fuel
  induction fuel with
  | zero => intro s ht; exact ht
  | succ fuel ih =>
    intro s ht
    rw [outerLoopFuel]
    by_cases hg : s.left ≤ s.right
    · rw [if_pos hg]
      exact ih _ (outerStep_testedInv oracle s hg ht)
    · rw [if_neg hg]
      exact ht

theorem initState_testedInv (n : Nat) : TestedInv (initState n) := by
  exact ⟨List.nodup_nil, fun i hi => absurd hi (List.not_mem_nil i)⟩

/-! ### Behaviour with an oracle that never answers Ignore -/

theorem outerStep_noIgnore (oracle : Int → TestResult) (s : SearchState)
    (h : s.left ≤ s.right) (hni : ∀ i, oracle i ≠ .ignore) :
    (oracle ((s.left + s.right) / 2) = .pass ∧
      outerStep oracle s = { s with
        lastGoodIndex := (s.left + s.right) / 2,
        left := (s.left + s.right) / 2 + 1,
        tested := s.tested ++ [(s.left + s.right) / 2] }) ∨
    (oracle ((s.left + s.right) / 2) = .fail ∧
      outerStep oracle s = { s with
        firstBadIndex := (s.left + s.right) / 2,
        right := (s.left + s.right) / 2 - 1,
        tested := s.tested ++ [(s.left + s.right) / 2] }) := by
  obtain ⟨hml, hmr⟩ := mid_bounds s.left s.right h
  rcases outerStep_spec oracle s h with ⟨c, hc1, hc2, hv, hj, hl, hr, hg, hb, hig, hts⟩ |
    ⟨c, hc1, hc2, hv, hj, hl, hr, hg, hb, hig, hts⟩ | ⟨hj, hl, hr, hg, hb, hig, hts⟩
  · have hcm : c = (s.left + s.right) / 2 := by
      by_contra hne
      exact hni _ (hj _ le_rfl (by omega))
    subst hcm
    refine Or.inl ⟨hv, SearchState.ext hl hr hg hb ?_ ?_⟩
    · rw [hig, intRange_eq_nil _ _ (by omega), List.append_nil]
    · rw [hts, intRange_self]
  · have hcm : c = (s.left + s.right) / 2 := by
      by_contra hne
      exact hni _ (hj _ le_rfl (by omega))
    subst hcm
    refine Or.inr ⟨hv, SearchState.ext hl hr hg hb ?_ ?_⟩
    · rw [hig, intRange_eq_nil _ _ (by omega), List.append_nil]
    · rw [hts, intRange_self]
  · exact absurd (hj _ le_rfl hmr) (hni _)

theorem outerLoopFuel_gap (oracle : Int → TestResult) (hni : ∀ i, oracle i ≠ .ignore) :
    ∀ (fuel : Nat) (s : SearchState),
      (s.lastGoodIndex = -1 ∨ s.lastGoodIndex = s.left - 1) →
      (s.firstBadIndex = -1 ∨ s.firstBadIndex = s.right + 1) →
      s.left ≤ s.right + 1 →
      ((outerLoopFuel oracle fuel s).lastGoodIndex = -1 ∨
        (outerLoopFuel oracle fuel s).lastGoodIndex =
          (outerLoopFuel oracle fuel s).left - 1) ∧
      ((outerLoopFuel oracle fuel s).firstBadIndex = -1 ∨
        (outerLoopFuel oracle fuel s).firstBadIndex =
          (outerLoopFuel oracle fuel s).right + 1) ∧
      (outerLoopFuel oracle fuel s).left ≤ (outerLoopFuel oracle fuel s).right + 1 := by
  intro fuel
  induction fuel with
  | zero =>
    intro s h1 h2 h3
    exact ⟨h1, h2, h3⟩
  | succ fuel ih =>
    intro s h1 h2 h3
    rw [outerLoopFuel]
    by_cases hg : s.left ≤ s.right
    · rw [if_pos hg]
      obtain ⟨hml, hmr⟩ := mid_bounds s.left s.right hg
      rcases outerStep_noIgnore oracle s hg hni with ⟨hv, hstep⟩ | ⟨hv, hstep⟩ <;> rw [hstep]
      · refine ih _ (Or.inr ?_) ?_ ?_
        · show (s.left + s.right) / 2 = (s.left + s.right) / 2 + 1 - 1
          omega
        · exact h2
        · show (s.left + s.right) / 2 + 1 ≤ s.right + 1
          omega
      · refine ih _ ?_ (Or.inr ?_) ?_
        · exact h1
        · show (s.left + s.right) / 2 = (s.left + s.right) / 2 - 1 + 1
          omega
        · show s.left ≤ (s.left + s.right) / 2 - 1 + 1
          omega
    · rw [if_neg hg]
      exact ⟨h1, h2, h3⟩

theorem logHalfBound (k k2 : Nat) (hk : 1 ≤ k) (hk2 : k2 ≤ k / 2) :
    (if k2 = 0 then 0 else Nat.log 2 k2 + 1) + 1 ≤ Nat.log 2 k + 1 := by
  by_cases h0 : k2 = 0
  · simp [h0]
  · rw [if_neg h0]
    have hk4 : 2 ≤ k := by omega
    have h1 : Nat.log 2 k2 ≤ Nat.log 2 (k / 2) := Nat.log_mono_right hk2
    have h2 : Nat.log 2 (k / 2) = Nat.log 2 k - 1 := Nat.log_div_base 2 k
    have h3 : 0 < Nat.log 2 k := Nat.log_pos (by omega) hk4
    omega

theorem outerLoopFuel_testCount (oracle : Int → TestResult)
    (hni : ∀ i, oracle i ≠ .ignore) :
    ∀ (fuel : Nat) (s : SearchState),
      (outerLoopFuel oracle fuel s).tested.length ≤
        s.tested.length +
          (if rangeSize s = 0 then 0 else Nat.log 2 (rangeSize s) + 1) := by
  intro fuel
  induction fuel with
  | zero =>
    intro s
    exact Nat.le_add_right _ _
  | succ fuel ih =>
    intro s
    rw [outerLoopFuel]
    by_cases hg : s.left ≤ s.right
    · rw [if_pos hg]
      obtain ⟨hml, hmr⟩ := mid_bounds s.left s.right hg
      have hk : 1 ≤ rangeSize s := by
        unfold rangeSize
        omega
      rcases outerStep_noIgnore oracle s hg hni with ⟨hv, hstep⟩ | ⟨hv, hstep⟩ <;> rw [hstep]
      · have hlen := ih { s with
          lastGoodIndex := (s.left + s.right) / 2,
          left := (s.left + s.right) / 2 + 1,
          tested := s.tested ++ [(s.left + s.right) / 2] }
        have hlen2 : ({ s with
            lastGoodIndex := (s.left + s.right) / 2,
            left := (s.left + s.right) / 2 + 1,
            tested := s.tested ++ [(s.left + s.right) / 2] } : SearchState).tested.length
            = s.tested.length + 1 := by
          rw [show ({ s with
            lastGoodIndex := (s.left + s.right) / 2,
            left := (s.left + s.right) / 2 + 1,
            tested := s.tested ++ [(s.left + s.right) / 2] } : SearchState).tested
              = s.tested ++ [(s.left + s.right) / 2] from rfl]
          rw [List.length_append, List.length_singleton]
        have hsz : rangeSize { s with
            lastGoodIndex := (s.left + s.right) / 2,
            left := (s.left + s.right) / 2 + 1,
            tested := s.tested ++ [(s.left + s.right) / 2] } ≤ rangeSize s / 2 := by
          show (s.right + 1 - ((s.left + s.right) / 2 + 1)).toNat ≤
            (s.right + 1 - s.left).toNat / 2
          omega
        have hlb := logHalfBound (rangeSize s) _ hk hsz
        rw [if_neg (show ¬ rangeSize s = 0 by omega)]
        omega
      · have hlen := ih { s with
          firstBadIndex := (s.left + s.right) / 2,
          right := (s.left + s.right) / 2 - 1,
          tested := s.tested ++ [(s.left + s.right) / 2] }
        have hlen2 : ({ s with
            firstBadIndex := (s.left + s.right) / 2,
            right := (s.left + s.right) / 2 - 1,
            tested := s.tested ++ [(s.left + s.right) / 2] } : SearchState).tested.length
            = s.tested.length + 1 := by
          rw [show ({ s with
            firstBadIndex := (s.left + s.right) / 2,
            right := (s.left + s.right) / 2 - 1,
            tested := s.tested ++ [(s.left + s.right) / 2] } : SearchState).tested
              = s.tested ++ [(s.left + s.right) / 2] from rfl]
          rw [List.length_append, List.length_singleton]
        have hsz : rangeSize { s with
            firstBadIndex := (s.left + s.right) / 2,
            right := (s.left + s.right) / 2 - 1,
            tested := s.tested ++ [(s.left + s.right) / 2] } ≤ rangeSize s / 2 := by
          show ((s.left + s.right) / 2 - 1 + 1 - s.left).toNat ≤
            (s.right + 1 - s.left).toNat / 2
          omega
        have hlb := logHalfBound (rangeSize s) _ hk hsz
        rw [if_neg (show ¬ rangeSize s = 0 by omega)]
        omega
    · rw [if_neg hg]
      exact Nat.le_add_right _ _

/-! ### Bisimulation between the ternary and the binary engines -/

theorem binaryStep_eq (oracle : Int → Bool) (b : BinaryState) :
    binaryStep oracle b =
      if oracle ((b.left + b.right) / 2) then
        { b with lastGoodIndex := (b.left + b.right) / 2,
                 left := (b.left + b.right) / 2 + 1,
                 tested := b.tested ++ [(b.left + b.right) / 2] }
      else
        { b with firstBadIndex := (b.left + b.right) / 2,
                 right := (b.left + b.right) / 2 - 1,
                 tested := b.tested ++ [(b.left + b.right) / 2] } := rfl

theorem outerStep_bisim (o : Int → TestResult) (ob : Int → Bool)
    (hni : ∀ i, o i ≠ .ignore) (hcorr : ∀ i, ob i = true ↔ o i = .pass)
    (s : SearchState) (b : BinaryState) (h : s.left ≤ s.right)
    (hm : MatchBin s b) : MatchBin (outerStep o s) (binaryStep ob b) := by
  simp only [MatchBin] at hm ⊢
  obtain ⟨m1, m2, m3, m4, m5⟩ := hm
  have hmid : (s.left + s.right) / 2 = (b.left + b.right) / 2 := by rw [m1, m2]
  rcases outerStep_noIgnore o s h hni with ⟨hv, hstep⟩ | ⟨hv, hstep⟩
  · have hob : ob ((b.left + b.right) / 2) = true := by
      rw [hcorr, ← hmid]
      exact hv
    rw [hstep, binaryStep_eq, if_pos hob]
    refine ⟨?_, ?_, ?_, ?_, ?_⟩
    · show (s.left + s.right) / 2 + 1 = (b.left + b.right) / 2 + 1
      rw [hmid]
    · exact m2
    · exact hmid
    · exact m4
    · show s.tested ++ [(s.left + s.right) / 2] = b.tested ++ [(b.left + b.right) / 2]
      rw [m5, hmid]
  · have hob : ¬ ob ((b.left + b.right) / 2) = true := by
      rw [hcorr, ← hmid, hv]
      intro hcon
      cases hcon
    rw [hstep, binaryStep_eq, if_neg hob]
    refine ⟨?_, ?_, ?_, ?_, ?_⟩
    · exact m1
    · show (s.left + s.right) / 2 - 1 = (b.left + b.right) / 2 - 1
      rw [hmid]
    · exact m3
    · exact hmid
    · show s.tested ++ [(s.left + s.right) / 2] = b.tested ++ [(b.left + b.right) / 2]
      rw [m5, hmid]

theorem outerLoopFuel_bisim (o : Int → TestResult) (ob : Int → Bool)
    (hni : ∀ i, o i ≠ .ignore) (hcorr : ∀ i, ob i = true ↔ o i = .pass) :
    ∀ (fuel : Nat) (s : SearchState) (b : BinaryState), MatchBin s b →
      MatchBin (outerLoopFuel o fuel s) (binaryLoopFuel ob fuel b) := by
  intro fuel
  induction fuel with
  | zero => intro s b hm; exact hm
  | succ fuel ih =>
    intro s b hm
    obtain ⟨m1, m2, m3, m4, m5⟩ := hm
    rw [outerLoopFuel, binaryLoopFuel]
    by_cases hg : s.left ≤ s.right
    · rw [if_pos hg, if_pos (by rw [← m1, ← m2]; exact hg)]
      exact ih _ _ (outerStep_bisim o ob hni hcorr s b hg ⟨m1, m2, m3, m4, m5⟩)
    · rw [if_neg hg, if_neg (by rw [← m1, ← m2]; exact hg)]
      exact ⟨m1, m2, m3, m4, m5⟩

/-! ### Behaviour with an oracle that always answers Ignore -/

theorem outerLoopFuel_allIgnore (oracle : Int → TestResult)
    (hIgn : ∀ i, oracle i = .ignore) :
    ∀ (fuel : Nat) (s : SearchState), s.left = 0 → rangeSize s ≤ fuel →
      (outerLoopFuel oracle fuel s).left = 0 ∧
      (outerLoopFuel oracle fuel s).right < 0 ∧
      (outerLoopFuel oracle fuel s).lastGoodIndex = s.lastGoodIndex ∧
      (outerLoopFuel oracle fuel s).firstBadIndex = s.firstBadIndex ∧
      (∀ i : Int, (outerLoopFuel oracle fuel s).tested.count i =
        s.tested.count i + (if 0 ≤ i ∧ i ≤ s.right then 1 else 0)) ∧
      (∀ i : Int, (outerLoopFuel oracle fuel s).ignoredItems.count i =
        s.ignoredItems.count i + (if 0 ≤ i ∧ i ≤ s.right then 1 else 0)) := by
  intro fuel
  induction fuel with
  | zero =>
    intro s hl0 hsz
    unfold rangeSize at hsz
    rw [show outerLoopFuel oracle 0 s = s from rfl]
    refine ⟨hl0, by omega, rfl, rfl, ?_, ?_⟩ <;>
      · intro i
        rw [if_neg (by omega)]
        omega
  | succ fuel ih =>
    intro s hl0 hsz
    rw [outerLoopFuel]
    by_cases hg : s.left ≤ s.right
    · rw [if_pos hg]
      obtain ⟨hml, hmr⟩ := mid_bounds s.left s.right hg
      rcases outerStep_spec oracle s hg with ⟨c, hc1, hc2, hv, hj, hl, hr, hg2, hb, hig, hts⟩ |
        ⟨c, hc1, hc2, hv, hj, hl, hr, hg2, hb, hig, hts⟩ | ⟨hj, hl, hr, hg2, hb, hig, hts⟩
      · rw [hIgn c] at hv
        cases hv
      · rw [hIgn c] at hv
        cases hv
      · have hstepl : (outerStep oracle s).left = 0 := by rw [hl, hl0]
        have hstepsz : rangeSize (outerStep oracle s) ≤ fuel := by
          unfold rangeSize at hsz ⊢
          rw [hr, hl, hl0]
          omega
        obtain ⟨k1, k2, k3, k4, k5, k6⟩ := ih (outerStep oracle s) hstepl hstepsz
        refine ⟨k1, k2, ?_, ?_, ?_, ?_⟩
        · rw [k3, hg2]
        · rw [k4, hb]
        · intro i
          rw [k5 i, hts, List.count_append, intRange_count, hr]
          split_ifs <;> omega
        · intro i
          rw [k6 i, hig, List.count_append, intRange_count, hr]
          split_ifs <;> omega
    · rw [if_neg hg]
      unfold rangeSize at hsz
      refine ⟨hl0, by omega, rfl, rfl, ?_, ?_⟩ <;>
        · intro i
          rw [if_neg (by omega)]
          omega

/-! ### Report synthesis -/

theorem makeReport_goodItem (s : SearchState) :
    (makeReport s).goodItem =
      if 0 ≤ s.lastGoodIndex then some s.lastGoodIndex else none := rfl

theorem makeReport_badItem (s : SearchState) :
    (makeReport s).badItem =
      if 0 ≤ s.firstBadIndex then some s.firstBadIndex else none := rfl

theorem makeReport_boundary (s : SearchState) :
    (makeReport s).boundary =
      if 0 ≤ s.firstBadIndex ∧ 0 ≤ s.lastGoodIndex then
        if s.firstBadIndex - s.lastGoodIndex = 1 then
          BoundaryInfo.exactPair s.lastGoodIndex s.firstBadIndex
        else if s.firstBadIndex - s.lastGoodIndex > 1 then
          BoundaryInfo.openRange s.lastGoodIndex s.firstBadIndex (itemsInBetween s)
        else BoundaryInfo.noInfo
      else if 0 ≤ s.lastGoodIndex ∧ s.firstBadIndex = -1 then
        BoundaryInfo.onlyGood s.lastGoodIndex
      else if s.lastGoodIndex = -1 ∧ 0 ≤ s.firstBadIndex then
        BoundaryInfo.onlyBad s.firstBadIndex
      else BoundaryInfo.noInfo := rfl

theorem mem_itemsInBetween (s : SearchState) (i : Int) (tg : Tag) :
    (i, tg) ∈ itemsInBetween s ↔
      (s.lastGoodIndex < i ∧ i < s.firstBadIndex ∧
        tg = (if i ∈ s.ignoredItems then Tag.ignored else Tag.untested)) := by
  unfold itemsInBetween
  rw [List.mem_map]
  constructor
  · rintro ⟨a, ha, heq⟩
    rw [mem_intRange] at ha
    rw [Prod.mk.injEq] at heq
    obtain ⟨rfl, htg⟩ := heq
    exact ⟨by omega, by omega, htg.symm⟩
  · rintro ⟨h1, h2, rfl⟩
    exact ⟨i, (mem_intRange _ _ _).2 ⟨by omega, by omega⟩, rfl⟩

theorem itemsInBetween_length (s : SearchState) :
    (itemsInBetween s).length = (s.firstBadIndex - s.lastGoodIndex - 1).toNat := by
  unfold itemsInBetween
  rw [List.length_map, intRange_length]
  congr 1
  omega

/-! ### The claims -/

/-- C1 counterexample: with four items, Ignore at index 1 and Fail at
index 2, the first outer iteration records firstBadIndex = 2 (so the Fail
happened at cursor 2) but ends with right = 0 = mid - 1, not
cursor - 1 = 1: the narrowing to mid - 1 also fires after a Fail. -/
theorem claim_C1_counterexample :
    (outerStep oracleC1ex (initState 4)).firstBadIndex = 2 ∧
    (outerStep oracleC1ex (initState 4)).right = 0 ∧ ((0 : Int) ≠ 2 - 1) := by
  decide

/-- C1 (amended): when the oracle returns Fail for the item at the inner
cursor, the engine records the cursor as firstBadIndex, sets
right = cursor - 1 and breaks the inner loop; but because cursor > right
then holds, the end-of-iteration narrowing also fires, so at the end of
that outer iteration right equals mid - 1 — which equals cursor - 1
exactly when no Ignore preceded the Fail in that iteration
(cursor = mid).  The narrowing to mid - 1 is not exclusive to the
all-Ignore exit: it happens after every Fail as well. -/
theorem claim_C1 (oracle : Int → TestResult) (s : SearchState)
    (h : s.left ≤ s.right)
    (hc : (innerLoop oracle s ((s.left + s.right) / 2)).2 ≤ s.right)
    (hf : oracle ((innerLoop oracle s ((s.left + s.right) / 2)).2) = .fail) :
    (innerLoop oracle s ((s.left + s.right) / 2)).1.firstBadIndex =
      (innerLoop oracle s ((s.left + s.right) / 2)).2 ∧
    (innerLoop oracle s ((s.left + s.right) / 2)).1.right =
      (innerLoop oracle s ((s.left + s.right) / 2)).2 - 1 ∧
    (outerStep oracle s).right = (s.left + s.right) / 2 - 1 ∧
    (outerStep oracle s).firstBadIndex =
      (innerLoop oracle s ((s.left + s.right) / 2)).2 ∧
    ((outerStep oracle s).right =
        (innerLoop oracle s ((s.left + s.right) / 2)).2 - 1 ↔
      (innerLoop oracle s ((s.left + s.right) / 2)).2 = (s.left + s.right) / 2) := by
  obtain ⟨hml, hmr⟩ := mid_bounds s.left s.right h
  rcases he : innerLoop oracle s ((s.left + s.right) / 2) with ⟨t1, c⟩
  simp only [he] at hc hf ⊢
  obtain ⟨hcc, hcase⟩ := innerLoop_spec oracle s _ t1 c he
  have hstep : outerStep oracle s =
      if c > t1.right then { t1 with right := (s.left + s.right) / 2 - 1 } else t1 := by
    simp only [outerStep, he]
  rcases hcase with ⟨h1, h2, h3, h4, h5, h6, h7, h8, h9⟩ |
    ⟨h1, h2, h3, h4, h5, h6, h7, h8, h9⟩ | ⟨h1, h2, h3, h4, h5, h6, h7, h8⟩
  · rw [h2] at hf
    cases hf
  · have ho : outerStep oracle s = { t1 with right := (s.left + s.right) / 2 - 1 } := by
      rw [hstep, if_pos (by omega)]
    refine ⟨h7, h5, ?_, ?_, ?_⟩
    · rw [ho]
    · rw [ho]
      exact h7
    · rw [ho]
      show (s.left + s.right) / 2 - 1 = c - 1 ↔ c = (s.left + s.right) / 2
      omega
  · omega

/-- C2 counterexample: with test command "echo @i" and item "v1", the
engine executes the test command verbatim — the placeholder is not
substituted in the test command (runCommand is called with no item for the
test step), unlike the state-transition command. -/
theorem claim_C2_counterexample :
    runCommandFinal optsC2.testCommand none = "echo @i" ∧
    replaceAll optsC2.testCommand "@i" "v1" = "echo v1" ∧
    ("echo @i" : String) ≠ "echo v1" ∧
    testStepCommands optsC2 "v1" = ["git checkout v1", "echo @i"] := by
  decide

/-- C2 (amended): for one tested item the engine runs the state-transition
command first, with every occurrence of the placeholder substituted by the
item, and then the test command, which is executed verbatim with no
placeholder substitution (the last executed command is exactly the
configured test command string). -/
theorem claim_C2 (options : BisectOptions) (item : String) :
    (testStepCommands options item).getLast? = some options.testCommand ∧
    (∀ c, options.nextStateCommand = some c →
      testStepCommands options item = [replaceAll c "@i" item, options.testCommand]) ∧
    (options.nextStateCommand = none →
      testStepCommands options item = [options.testCommand]) := by
  refine ⟨?_, ?_, ?_⟩
  · rcases hn : options.nextStateCommand with _ | c <;>
      simp [testStepCommands, runCommandFinal, hn]
  · intro c hc
    simp [testStepCommands, runCommandFinal, hc]
  · intro hc
    simp [testStepCommands, runCommandFinal, hc]

/-- C2 witness: at the concrete options, the executed commands are the
substituted state-transition command followed by the verbatim test
command. -/
theorem claim_C2_witness :
    testStepCommands optsC2 "v1" =
      [replaceAll "git checkout @i" "@i" "v1", optsC2.testCommand] :=
  (claim_C2 optsC2 "v1").2.1 "git checkout @i" rfl

/-- C1 witness: the amended statement applied to the concrete
ignore-then-fail run on four items. -/
theorem claim_C1_witness :
    (outerStep oracleC1ex (initState 4)).right = ((0 : Int) + 3) / 2 - 1 :=
  (claim_C1 oracleC1ex (initState 4) (by decide) (by decide) (by decide)).2.2.1

/-- C3: for a sequence of length n ≥ 1 whose oracle never answers Ignore
and is consistent with a single monotone good-to-bad transition, the
engine performs at most ceil(log2 n) + 1 test invocations, and when both
lastGoodIndex and firstBadIndex are recorded at completion they are
adjacent: lastGoodIndex + 1 = firstBadIndex. -/
theorem claim_C3 (oracle : Int → TestResult) (n : Nat) (hn : 1 ≤ n)
    (hNoIgn : ∀ i, oracle i ≠ .ignore)
    (hMono : ∀ i j : Int, i ≤ j → oracle i = .fail → oracle j = .fail) :
    (bisect oracle n).tested.length ≤ Nat.clog 2 n + 1 ∧
    (0 ≤ (bisect oracle n).lastGoodIndex → 0 ≤ (bisect oracle n).firstBadIndex →
      (bisect oracle n).lastGoodIndex + 1 = (bisect oracle n).firstBadIndex) := by
  have hsz : rangeSize (initState n) = n := by
    show ((n : Int) - 1 + 1 - 0).toNat = n
    omega
  unfold bisect
  constructor
  · have hcount := outerLoopFuel_testCount oracle hNoIgn n (initState n)
    rw [hsz] at hcount
    have hlen0 : (initState n).tested.length = 0 := rfl
    rw [hlen0, if_neg (by omega)] at hcount
    have hlog := Nat.log_le_clog 2 n
    omega
  · intro hg hb
    have hgap := outerLoopFuel_gap oracle hNoIgn n (initState n) (Or.inl rfl) (Or.inl rfl)
      (by show (0 : Int) ≤ (n : Int) - 1 + 1; omega)
    have hdone := outerLoopFuel_done oracle n (initState n) (by omega)
    obtain ⟨g1, g2, g3⟩ := hgap
    rcases g1 with g1 | g1
    · omega
    rcases g2 with g2 | g2
    · omega
    omega

/-- C3 witness: the oracle passing exactly index 0 over four items tests
at most three indices and ends with the adjacent pair 0, 1. -/
theorem claim_C3_witness :
    (bisect oraclePF 4).tested.length ≤ Nat.clog 2 4 + 1 ∧
    (bisect oraclePF 4).lastGoodIndex + 1 = (bisect oraclePF 4).firstBadIndex := by
  have h := claim_C3 oraclePF 4 (by decide)
    (fun i => by
      unfold oraclePF
      split_ifs <;> exact fun hcon => TestResult.noConfusion hcon)
    (fun i j hij hf => by
      unfold oraclePF at hf ⊢
      split_ifs at hf ⊢ with h1 h2 <;>
        first
          | rfl
          | exact hf
          | exact absurd hf (by decide)
          | exact absurd hij (by omega))
  exact ⟨h.1, h.2 (by decide) (by decide)⟩

/-- C4: when the oracle answers Ignore for every item of a sequence of
length n ≥ 1, the search loop terminates, every index in 0..n-1 is tested
exactly once, lastGoodIndex and firstBadIndex remain unset, every index is
recorded in ignoredItems exactly once, and the report shows no good item
and no bad item. -/
theorem claim_C4 (oracle : Int → TestResult) (n : Nat) (hn : 1 ≤ n)
    (hIgn : ∀ i, oracle i = .ignore) :
    (bisect oracle n).right < (bisect oracle n).left ∧
    (∀ i : Int, (bisect oracle n).tested.count i =
      if 0 ≤ i ∧ i < (n : Int) then 1 else 0) ∧
    (bisect oracle n).lastGoodIndex = -1 ∧
    (bisect oracle n).firstBadIndex = -1 ∧
    (∀ i : Int, (bisect oracle n).ignoredItems.count i =
      if 0 ≤ i ∧ i < (n : Int) then 1 else 0) ∧
    (makeReport (bisect oracle n)).goodItem = none ∧
    (makeReport (bisect oracle n)).badItem = none := by
  have hinit : (initState n).left = 0 := rfl
  have hsz : rangeSize (initState n) ≤ n := by
    show ((n : Int) - 1 + 1 - 0).toNat ≤ n
    omega
  obtain ⟨k1, k2, k3, k4, k5, k6⟩ :=
    outerLoopFuel_allIgnore oracle hIgn n (initState n) hinit hsz
  have hr0 : (initState n).right = (n : Int) - 1 := rfl
  rw [hr0] at k5 k6
  have hlg0 : (initState n).lastGoodIndex = -1 := rfl
  have hfb0 : (initState n).firstBadIndex = -1 := rfl
  rw [hlg0] at k3
  rw [hfb0] at k4
  unfold bisect
  refine ⟨by omega, ?_, k3, k4, ?_, ?_, ?_⟩
  · intro i
    rw [k5 i]
    have hc0 : (initState n).tested.count i = 0 := rfl
    rw [hc0]
    split_ifs <;> omega
  · intro i
    rw [k6 i]
    have hc0 : (initState n).ignoredItems.count i = 0 := rfl
    rw [hc0]
    split_ifs <;> omega
  · rw [makeReport_goodItem, k3, if_neg (by decide)]
  · rw [makeReport_badItem, k4, if_neg (by decide)]

/-- C4 witness: the all-Ignore oracle over eight items. -/
theorem claim_C4_witness :
    (bisect oracleAllIgnore 8).lastGoodIndex = -1 ∧
    (bisect oracleAllIgnore 8).firstBadIndex = -1 ∧
    (makeReport (bisect oracleAllIgnore 8)).goodItem = none := by
  have h := claim_C4 oracleAllIgnore 8 (by decide) (fun i => rfl)
  exact ⟨h.2.2.1, h.2.2.2.1, h.2.2.2.2.2.1⟩

/-- C5: the unresolved range strictly shrinks on every outer iteration
with a non-empty range (it never re-widens), so the loop reaches its exit
condition within rangeSize-many outer iterations; in particular a run on n
items is complete within n outer iterations. -/
theorem claim_C5 (oracle : Int → TestResult) (s : SearchState) :
    (s.left ≤ s.right → rangeSize (outerStep oracle s) < rangeSize s) ∧
    (∀ fuel, rangeSize s ≤ fuel →
      (outerLoopFuel oracle fuel s).right < (outerLoopFuel oracle fuel s).left) ∧
    (∀ n : Nat, (bisect oracle n).right < (bisect oracle n).left) := by
  refine ⟨fun h => outerStep_rangeSize_lt oracle s h,
    fun fuel hf => outerLoopFuel_done oracle fuel s hf, fun n => ?_⟩
  unfold bisect
  apply outerLoopFuel_done
  show ((n : Int) - 1 + 1 - 0).toNat ≤ n
  omega

/-- C5 witness: one outer iteration on four items with an all-pass oracle
shrinks the range. -/
theorem claim_C5_witness :
    rangeSize (outerStep oracleAllPass (initState 4)) < rangeSize (initState 4) :=
  (claim_C5 oracleAllPass (initState 4)).1 (by decide)

/-- C6: when both indices are recorded, a gap of exactly one makes the
report pinpoint the transition as the exact adjacent pair; a larger gap
produces the open range in which every strictly intermediate index is
annotated ignored exactly when it is recorded in ignoredItems and
untested otherwise. -/
theorem claim_C6 (s : SearchState) (hg : 0 ≤ s.lastGoodIndex)
    (hb : 0 ≤ s.firstBadIndex) :
    (s.firstBadIndex - s.lastGoodIndex = 1 →
      (makeReport s).boundary =
        BoundaryInfo.exactPair s.lastGoodIndex s.firstBadIndex) ∧
    (1 < s.firstBadIndex - s.lastGoodIndex →
      (makeReport s).boundary =
        BoundaryInfo.openRange s.lastGoodIndex s.firstBadIndex (itemsInBetween s) ∧
      (itemsInBetween s).length = (s.firstBadIndex - s.lastGoodIndex - 1).toNat ∧
      (∀ i : Int, s.lastGoodIndex < i → i < s.firstBadIndex →
        ((i, Tag.ignored) ∈ itemsInBetween s ↔ i ∈ s.ignoredItems) ∧
        ((i, Tag.untested) ∈ itemsInBetween s ↔ i ∉ s.ignoredItems))) := by
  constructor
  · intro h1
    rw [makeReport_boundary, if_pos ⟨hb, hg⟩, if_pos h1]
  · intro h1
    refine ⟨?_, itemsInBetween_length s, ?_⟩
    · rw [makeReport_boundary, if_pos ⟨hb, hg⟩, if_neg (by omega), if_pos (by omega)]
    · intro i hlo hhi
      constructor
      · rw [mem_itemsInBetween]
        constructor
        · rintro ⟨a1, a2, a3⟩
          by_cases hm : i ∈ s.ignoredItems
          · exact hm
          · rw [if_neg hm] at a3
            exact absurd a3 (by decide)
        · intro hm
          exact ⟨hlo, hhi, by rw [if_pos hm]⟩
      · rw [mem_itemsInBetween]
        constructor
        · rintro ⟨a1, a2, a3⟩
          by_cases hm : i ∈ s.ignoredItems
          · rw [if_pos hm] at a3
            exact absurd a3 (by decide)
          · exact hm
        · intro hm
          exact ⟨hlo, hhi, by rw [if_neg hm]⟩

/-- C6 witness: a concrete final state with gap three yields the open
range form of the boundary. -/
theorem claim_C6_witness :
    (makeReport gapState).boundary =
      BoundaryInfo.openRange 0 3 (itemsInBetween gapState) :=
  ((claim_C6 gapState (by decide) (by decide)).2 (by decide)).1

/-- C7: across one engine run, for any oracle, the recorded lastGoodIndex
is monotonically non-decreasing between any two points in time, and once
firstBadIndex is recorded it stays recorded and is monotonically
non-increasing. -/
theorem claim_C7 (oracle : Int → TestResult) (n : Nat) (f1 f2 : Nat) (hf : f1 ≤ f2) :
    (outerLoopFuel oracle f1 (initState n)).lastGoodIndex ≤
      (outerLoopFuel oracle f2 (initState n)).lastGoodIndex ∧
    (0 ≤ (outerLoopFuel oracle f1 (initState n)).firstBadIndex →
      (outerLoopFuel oracle f2 (initState n)).firstBadIndex ≤
        (outerLoopFuel oracle f1 (initState n)).firstBadIndex ∧
      0 ≤ (outerLoopFuel oracle f2 (initState n)).firstBadIndex) := by
  have hdecomp : outerLoopFuel oracle f2 (initState n) =
      outerLoopFuel oracle (f2 - f1) (outerLoopFuel oracle f1 (initState n)) := by
    rw [← outerLoopFuel_add]
    congr 1
    omega
  obtain ⟨j1, j2, j3⟩ := outerLoopFuel_inv oracle f1 (initState n) (initState_inv n)
  obtain ⟨k1, k2, k3⟩ :=
    outerLoopFuel_inv oracle (f2 - f1) (outerLoopFuel oracle f1 (initState n)) j1
  rw [hdecomp]
  exact ⟨k2, k3⟩

/-- C7 witness: between the first and the second outer iteration of the
all-pass oracle over four items, lastGoodIndex does not decrease. -/
theorem claim_C7_witness :
    (outerLoopFuel oracleAllPass 1 (initState 4)).lastGoodIndex ≤
      (outerLoopFuel oracleAllPass 2 (initState 4)).lastGoodIndex :=
  (claim_C7 oracleAllPass 4 1 2 (by decide)).1

/-- C8: for an oracle that never answers Ignore, the ternary engine and
the binary engine with the corresponding boolean oracle test the same
indices in the same order and record the same lastGoodIndex and
firstBadIndex. -/
theorem claim_C8 (o : Int → TestResult) (ob : Int → Bool) (n : Nat)
    (hni : ∀ i, o i ≠ .ignore) (hcorr : ∀ i, ob i = true ↔ o i = .pass) :
    (bisect o n).tested = (bisectBinary ob n).tested ∧
    (bisect o n).lastGoodIndex = (bisectBinary ob n).lastGoodIndex ∧
    (bisect o n).firstBadIndex = (bisectBinary ob n).firstBadIndex := by
  have hm := outerLoopFuel_bisim o ob hni hcorr n (initState n) (initBinaryState n)
    ⟨rfl, rfl, rfl, rfl, rfl⟩
  simp only [MatchBin] at hm
  obtain ⟨m1, m2, m3, m4, m5⟩ := hm
  exact ⟨m5, m3, m4⟩

/-- C8 witness: the single-transition oracle over four items gives the
same recorded lastGoodIndex in both engines. -/
theorem claim_C8_witness :
    (bisect oraclePF 4).lastGoodIndex = (bisectBinary boraclePF 4).lastGoodIndex :=
  (claim_C8 oraclePF boraclePF 4
    (fun i => by
      unfold oraclePF
      split_ifs <;> exact fun hcon => TestResult.noConfusion hcon)
    (fun i => by
      unfold boraclePF oraclePF
      by_cases h : i < 1 <;> simp [h])).2.1

/-- C9: at every point of a run with any oracle, whenever both
lastGoodIndex and firstBadIndex are recorded, lastGoodIndex is strictly
below firstBadIndex; the gap computed at report time is at least one and
the negative-gap branch of the report (no boundary information despite
both being recorded) cannot occur. -/
theorem claim_C9 (oracle : Int → TestResult) (n : Nat) (fuel : Nat)
    (hg : 0 ≤ (outerLoopFuel oracle fuel (initState n)).lastGoodIndex)
    (hb : 0 ≤ (outerLoopFuel oracle fuel (initState n)).firstBadIndex) :
    (outerLoopFuel oracle fuel (initState n)).lastGoodIndex <
      (outerLoopFuel oracle fuel (initState n)).firstBadIndex ∧
    1 ≤ (outerLoopFuel oracle fuel (initState n)).firstBadIndex -
      (outerLoopFuel oracle fuel (initState n)).lastGoodIndex ∧
    (makeReport (outerLoopFuel oracle fuel (initState n))).boundary ≠
      BoundaryInfo.noInfo := by
  have hinv := (outerLoopFuel_inv oracle fuel (initState n) (initState_inv n)).1
  simp only [EngineInv] at hinv
  obtain ⟨i1, i2, i3, i4⟩ := hinv
  have hlt : (outerLoopFuel oracle fuel (initState n)).lastGoodIndex <
      (outerLoopFuel oracle fuel (initState n)).firstBadIndex := by
    rcases i4 with i4 | i4 <;> omega
  refine ⟨hlt, by omega, ?_⟩
  rw [makeReport_boundary, if_pos ⟨hb, hg⟩]
  by_cases hone : (outerLoopFuel oracle fuel (initState n)).firstBadIndex -
      (outerLoopFuel oracle fuel (initState n)).lastGoodIndex = 1
  · rw [if_pos hone]
    exact fun hcon => BoundaryInfo.noConfusion hcon
  · rw [if_neg hone, if_pos (by omega)]
    exact fun hcon => BoundaryInfo.noConfusion hcon

/-- C9 witness: after the full run of the single-transition oracle over
four items both indices are recorded and lastGoodIndex < firstBadIndex. -/
theorem claim_C9_witness :
    (outerLoopFuel oraclePF 4 (initState 4)).lastGoodIndex <
      (outerLoopFuel oraclePF 4 (initState 4)).firstBadIndex :=
  (claim_C9 oraclePF 4 4 (by decide) (by decide)).1

/-- C10: at every point of a run with any oracle, no index has been
tested twice, and every tested index lies outside the current unresolved
range, so it can never be revisited. -/
theorem claim_C10 (oracle : Int → TestResult) (n fuel : Nat) :
    (outerLoopFuel oracle fuel (initState n)).tested.Nodup ∧
    ∀ i ∈ (outerLoopFuel oracle fuel (initState n)).tested,
      i < (outerLoopFuel oracle fuel (initState n)).left ∨
      (outerLoopFuel oracle fuel (initState n)).right < i := by
  have ht := outerLoopFuel_testedInv oracle fuel (initState n) (initState_testedInv n)
  simp only [TestedInv] at ht
  exact ht
